import Mathlib

/-!
Verification development for the `cel-jit` expression-to-bytecode compiler
(`src/expression.rs`).  The Rust trait `Expr` with its five implementors is
embedded as a closed sum type `Expr` (the argument vector of a call is a
mutually defined list type `ExprList` so that all recursions are structural
and kernel-computable).  The `&mut Vec<ByteCode>` buffer threaded through
`emit_bytecode` becomes explicit state passing: the embedded function takes
the buffer before the call and returns the buffer afterwards together with
`Option Error` (`none` = `Ok(())`, `some e` = `Err(e)`); on an early `?`
return the buffer returned is exactly the buffer at that point, mirroring
the contents the Rust `Vec` holds when the error propagates.
-/

namespace Cel

/-- Model of Rust `f64` restricted to what `expression.rs` observes: a value
is either the IEEE-754 NaN or an exact numeric value (every finite double is
a rational; the sign of zero is collapsed since `==` on doubles compares
numeric values).  The only operation the source applies is `==`, embedded as
`F64.beq`: exact equality on numeric values, false whenever NaN is involved. -/
inductive F64 where
  | nan : F64
  | val (q : ℚ) : F64
deriving DecidableEq, Repr

/-- IEEE-754 equality `==` as used in `<f64 as Expr>::values_equal`:
`NaN == x` and `x == NaN` are false; numeric values compare exactly. -/
def F64.beq : F64 → F64 → Bool
  | .val a, .val b => a == b
  | _, _ => false

/-- Exact numeric equality of two `F64` values (the claim-side notion of
"exactly numerically equal"); NaN has no numeric value, so it is numerically
equal to nothing. -/
def F64.numEq : F64 → F64 → Prop
  | .val a, .val b => a = b
  | _, _ => False

instance (a b : F64) : Decidable (F64.numEq a b) := by
  cases a <;> cases b <;> simp [F64.numEq] <;> infer_instance

/-- The `ByteCode` enum of `src/expression.rs`. -/
inductive ByteCode where
  | LoadConst (value : F64)
  | LoadItem (index : ℕ)
  | Call (func_index : ℕ) (line : ℕ) (column : ℕ)
  | CallVararg (func_index : ℕ) (num_args : ℕ) (line : ℕ) (column : ℕ)
  | LessThan
  | LessEqual
  | GreaterEqual
  | GreaterThan
  | Equal
  | Add
  | Sub
  | Multiply
  | Divide
  | Remainder
  | JumpIfZero (offset : ℕ)
  | Jump (offset : ℕ)
deriving DecidableEq, Repr

/-- The `BinaryOperator` enum of `src/expression.rs`. -/
inductive BinaryOperator where
  | LessThan
  | LessEqual
  | GreaterEqual
  | GreaterThan
  | Equal
  | Add
  | Sub
  | Multiply
  | Divide
  | Remainder
deriving DecidableEq, Repr

/-- Modelled from the spec: the `Function` signature enum of the missing
`src/environment.rs` (`FunctionSignature ∈ {Single, Double, Triple, Vararg}`,
spec §6).  Each Rust variant carries a callable used only at runtime, never
inspected by emission, so the payload is dropped here.  The variant set is
also pinned by the exhaustive `match func` in `CallExpr::emit_bytecode`. -/
inductive Function where
  | Single
  | Double
  | Triple
  | Vararg
deriving DecidableEq, Repr

/-- Modelled from the spec: the `Error` type of the missing `src/error.rs`.
Spec §6 "Diagnostics": every error carries a line, a column and a short
message; `expression.rs` constructs errors only via
`Error::new(line, column, msg)`. -/
structure Error where
  line : ℕ
  column : ℕ
  message : String
deriving DecidableEq, Repr

/-- Modelled from the spec: `Error::new` of the missing `src/error.rs`. -/
def Error.new (line : ℕ) (column : ℕ) (message : String) : Error :=
  ⟨line, column, message⟩

/-- Modelled from the spec: the read-only `Environment` collaborator
interface (spec §6): `index_of_item` resolves a variable name to a storage
slot (`resolve_variable`), `function_info` resolves a function name to its
index and signature (`resolve_function`).  These are the two methods
`expression.rs` calls on `&Environment`. -/
structure Environment where
  index_of_item : String → Option ℕ
  function_info : String → Option (ℕ × Function)

mutual

/-- The closed sum type for the five `Expr` implementors of
`src/expression.rs`: `ConditionalExpr`, `BinaryExpr`, `CallExpr`,
`IdentifierExpr`, and `impl Expr for f64` (constants). -/
inductive Expr where
  | const (value : F64)
  | identifier (line : ℕ) (column : ℕ) (name : String)
  | call (line : ℕ) (column : ℕ) (function : String) (arguments : ExprList)
  | binary (left : Expr) (operator : BinaryOperator) (right : Expr)
  | conditional (condition : Expr) (when_true : Expr) (when_false : Expr)

/-- Argument vector `Vec<Box<dyn Expr>>` of `CallExpr`. -/
inductive ExprList where
  | nil
  | cons (head : Expr) (tail : ExprList)

end

/-- Length of an argument vector (`self.arguments.len()`). -/
def ExprList.length : ExprList → ℕ
  | .nil => 0
  | .cons _ t => t.length + 1

/-- Converts a Lean list of nodes into an argument vector. -/
def ExprList.ofList : List Expr → ExprList
  | [] => .nil
  | a :: l => .cons a (ExprList.ofList l)

/-- The opcode for an operator tag: the `match self.operator` table inside
`BinaryExpr::emit_bytecode`. -/
def BinaryOperator.toByteCode : BinaryOperator → ByteCode
  | .LessThan => .LessThan
  | .LessEqual => .LessEqual
  | .GreaterEqual => .GreaterEqual
  | .GreaterThan => .GreaterThan
  | .Equal => .Equal
  | .Add => .Add
  | .Sub => .Sub
  | .Multiply => .Multiply
  | .Divide => .Divide
  | .Remainder => .Remainder

mutual

/-- The `emit_bytecode` methods of `src/expression.rs`, one per variant,
merged into a single recursive function by the closed-sum encoding.
The returned list is the buffer after the call; the returned `Option Error`
is `none` for `Ok(())`. -/
def emitBytecode (env : Environment) : Expr → List ByteCode → List ByteCode × Option Error
  | .const v, bc =>
      (bc ++ [.LoadConst v], none)
  | .identifier line column name, bc =>
      match env.index_of_item name with
      | some index => (bc ++ [.LoadItem index], none)
      | none => (bc, some (Error.new line column "identifier not found"))
  | .binary left operator right, bc =>
      match emitBytecode env right bc with
      | (bc, some err) => (bc, some err)
      | (bc, none) =>
        match emitBytecode env left bc with
        | (bc, some err) => (bc, some err)
        | (bc, none) => (bc ++ [operator.toByteCode], none)
  | .call line column function arguments, bc =>
      match emitArgs env arguments bc with
      | (bc, some err) => (bc, some err)
      | (bc, none) =>
        match env.function_info function with
        | none => (bc, some (Error.new line column "function not found"))
        | some (index, func) =>
          match func with
          | .Vararg =>
              (bc ++ [.CallVararg index arguments.length line column], none)
          | _ =>
            let expected_args : ℕ :=
              match func with
              | .Single => 1
              | .Double => 2
              | .Triple => 3
              | .Vararg => 0
            if expected_args != 0 && arguments.length != expected_args then
              (bc, some (Error.new line column "invalid num args"))
            else
              (bc ++ [.Call index line column], none)
  | .conditional condition when_true when_false, bc =>
      match emitBytecode env when_false [] with
      | (_, some err) => (bc, some err)
      | (false_path, none) =>
        match emitBytecode env when_true [] with
        | (_, some err) => (bc, some err)
        | (tp, none) =>
          let true_path := tp ++ [.Jump false_path.length]
          match emitBytecode env condition bc with
          | (bc, some err) => (bc, some err)
          | (bc, none) =>
              (bc ++ [.JumpIfZero true_path.length] ++ true_path ++ false_path,
               none)

/-- Argument loop of `CallExpr::emit_bytecode`
(`for i in (0..self.arguments.len()).rev() { self.arguments[i].emit_bytecode(env, bc)? }`):
emits the tail of the list (the later arguments) first, then the head,
stopping at the first failing argument. -/
def emitArgs (env : Environment) : ExprList → List ByteCode → List ByteCode × Option Error
  | .nil, bc => (bc, none)
  | .cons a rest, bc =>
      match emitArgs env rest bc with
      | (bc, some err) => (bc, some err)
      | (bc, none) => emitBytecode env a bc

end

mutual

/-- The `values_equal` methods of `src/expression.rs`, merged into one
recursive function: the `downcast_ref` succeeds exactly when both sides are
the same variant, and every cross-variant comparison is the `map_or(false, …)`
default. -/
def valuesEqual : Expr → Expr → Bool
  | .conditional c t f, .conditional c' t' f' =>
      valuesEqual c c' && valuesEqual t t' && valuesEqual f f'
  | .binary l op r, .binary l' op' r' =>
      valuesEqual l l' && op == op' && valuesEqual r r'
  | .call _ _ function args, .call _ _ function' args' =>
      valuesEqualList args args' && function == function'
  | .identifier _ _ name, .identifier _ _ name' =>
      name' == name
  | .const v, .const v' =>
      F64.beq v' v
  | _, _ => false

/-- Length check plus element loop of `CallExpr::values_equal`. -/
def valuesEqualList : ExprList → ExprList → Bool
  | .nil, .nil => true
  | .cons a as_, .cons b bs => valuesEqual a b && valuesEqualList as_ bs
  | _, _ => false

end

end Cel

namespace Cel

mutual

/-- Emission is insensitive to where the buffer already ends: emitting into
`b1 ++ bc` appends exactly what emitting into `bc` appends, with the same
error outcome.  This is the formal content of the `&mut Vec` usage in
`expression.rs`: every write is a `push` or `extend_from_slice`. -/
theorem emit_shift (env : Environment) (e : Expr) (b1 bc : List ByteCode) :
    emitBytecode env e (b1 ++ bc) =
      (b1 ++ (emitBytecode env e bc).1, (emitBytecode env e bc).2) :=
  match e with
  | .const v => by
      simp [emitBytecode]
  | .identifier line column name => by
      simp only [emitBytecode]
      cases h : env.index_of_item name <;> simp [h]
  | .binary left operator right => by
      simp only [emitBytecode]
      rw [emit_shift env right b1 bc]
      rcases hr : emitBytecode env right bc with ⟨rbc, rerr⟩
      cases rerr with
      | some err => simp
      | none =>
          simp only
          rw [emit_shift env left b1 rbc]
          rcases hl : emitBytecode env left rbc with ⟨lbc, lerr⟩
          cases lerr with
          | some err => simp
          | none => simp
  | .call line column function arguments => by
      simp only [emitBytecode]
      rw [emitArgs_shift env arguments b1 bc]
      rcases ha : emitArgs env arguments bc with ⟨abc, aerr⟩
      cases aerr with
      | some err => simp
      | none =>
          simp only
          cases hf : env.function_info function with
          | none => simp
          | some p =>
              rcases p with ⟨index, func⟩
              cases func <;> simp <;> split <;> simp
  | .conditional condition when_true when_false => by
      simp only [emitBytecode]
      rcases hf : emitBytecode env when_false [] with ⟨false_path, ferr⟩
      cases ferr with
      | some err => simp
      | none =>
          simp only
          rcases ht : emitBytecode env when_true [] with ⟨tp, terr⟩
          cases terr with
          | some err => simp
          | none =>
              simp only
              rw [emit_shift env condition b1 bc]
              rcases hc : emitBytecode env condition bc with ⟨cbc, cerr⟩
              cases cerr with
              | some err => simp
              | none => simp

/-- `emit_shift` for the argument loop of `CallExpr::emit_bytecode`. -/
theorem emitArgs_shift (env : Environment) (l : ExprList) (b1 bc : List ByteCode) :
    emitArgs env l (b1 ++ bc) =
      (b1 ++ (emitArgs env l bc).1, (emitArgs env l bc).2) :=
  match l with
  | .nil => by simp [emitArgs]
  | .cons a rest => by
      simp only [emitArgs]
      rw [emitArgs_shift env rest b1 bc]
      rcases hr : emitArgs env rest bc with ⟨rbc, rerr⟩
      cases rerr with
      | some err => simp
      | none =>
          simp only
          exact emit_shift env a b1 rbc

end

/-- Emitting into an arbitrary buffer is emitting into an empty buffer,
appended after the existing contents. -/
theorem emit_append (env : Environment) (e : Expr) (bc : List ByteCode) :
    emitBytecode env e bc =
      (bc ++ (emitBytecode env e []).1, (emitBytecode env e []).2) := by
  have h := emit_shift env e bc []
  simpa using h

/-- `emit_append` for the argument loop. -/
theorem emitArgs_append (env : Environment) (l : ExprList) (bc : List ByteCode) :
    emitArgs env l bc =
      (bc ++ (emitArgs env l []).1, (emitArgs env l []).2) := by
  have h := emitArgs_shift env l bc []
  simpa using h

end Cel

namespace Cel

/-- Expected argument count of a fixed-arity signature (`Single→1`,
`Double→2`, `Triple→3`); `none` for `Vararg`.  Mirrors the `expected_args`
match in `CallExpr::emit_bytecode`. -/
def expectedArgs : Function → Option ℕ
  | .Single => some 1
  | .Double => some 2
  | .Triple => some 3
  | .Vararg => none

/-- Length of a converted argument vector. -/
theorem ExprList.length_ofList (args : List Expr) :
    (ExprList.ofList args).length = args.length := by
  induction args with
  | nil => rfl
  | cons a l ih => simp [ExprList.ofList, ExprList.length, ih]

/-- When every argument emits successfully, the argument loop of
`CallExpr::emit_bytecode` appends the arguments' instruction sequences in
reverse argument order (last argument first) and succeeds. -/
theorem emitArgs_ofList_success (env : Environment) (args : List Expr)
    (h : ∀ a ∈ args, (emitBytecode env a []).2 = none) :
    emitArgs env (ExprList.ofList args) [] =
      ((args.reverse.map (fun a => (emitBytecode env a []).1)).flatten, none) := by
  induction args with
  | nil => simp [ExprList.ofList, emitArgs]
  | cons a l ih =>
      have hl : ∀ b ∈ l, (emitBytecode env b []).2 = none :=
        fun b hb => h b (List.mem_cons_of_mem a hb)
      have ha : (emitBytecode env a []).2 = none := h a (List.mem_cons_self a l)
      simp only [ExprList.ofList, emitArgs]
      rw [ih hl]
      simp only
      rw [emit_append env a]
      rcases he : emitBytecode env a [] with ⟨A, aerr⟩
      simp only [he] at ha
      subst ha
      simp [he, List.flatten_append]

end Cel

namespace Cel

/-- C9: for every node, environment and initial buffer contents, emission is
append-only: whether it succeeds or fails, the buffer afterwards (the first
component of the result) is the prior contents followed by some tail, so no
existing element is modified, removed or reordered.  The environment is
passed by read-only reference in the embedding (as `&Environment` in the
source) and cannot be mutated. -/
theorem emit_append_only (env : Environment) (e : Expr) (bc : List ByteCode) :
    ∃ tail, (emitBytecode env e bc).1 = bc ++ tail :=
  ⟨(emitBytecode env e []).1, by rw [emit_append]⟩

/-- C10: structural equality is not reflexive on constants: a `Constant`
node holding NaN is not `values_equal` to itself, because the comparison is
IEEE-754 `==` and `NaN == NaN` is false. -/
theorem nan_const_not_self_equal :
    valuesEqual (.const .nan) (.const .nan) = false := rfl

/-- C3: a Binary-Operator node whose children emit successfully appends the
right operand's instructions first, then the left operand's, then exactly
the one opcode for its operator tag. -/
theorem binary_emit (env : Environment) (l : Expr) (op : BinaryOperator)
    (r : Expr) (bc L R : List ByteCode)
    (hl : emitBytecode env l [] = (L, none))
    (hr : emitBytecode env r [] = (R, none)) :
    emitBytecode env (.binary l op r) bc =
      (bc ++ R ++ L ++ [op.toByteCode], none) := by
  simp only [emitBytecode]
  rw [emit_append env r bc, hr]
  simp only
  rw [emit_append env l (bc ++ R), hl]

/-- Environment used by the concrete witnesses: `x` is the only variable
(slot 4); `g` is a `Single` function (index 0), `d` a `Double` (index 1),
`v` a `Vararg` (index 7). -/
def wenv : Environment :=
  ⟨fun s => if s = "x" then some 4 else none,
   fun s =>
     if s = "g" then some (0, .Single)
     else if s = "d" then some (1, .Double)
     else if s = "v" then some (7, .Vararg)
     else none⟩

/-- Witness for C3 at the spec's own example `Binary(Sub, left=5, right=2)`:
the emitted sequence is `LoadConst 2, LoadConst 5, Sub` — right before left,
never the reverse. -/
theorem binary_emit_witness :
    emitBytecode wenv (.binary (.const (.val 5)) .Sub (.const (.val 2))) [] =
      ([.LoadConst (.val 2), .LoadConst (.val 5), .Sub], none) := by
  have h := binary_emit wenv (.const (.val 5)) .Sub (.const (.val 2)) []
    [.LoadConst (.val 5)] [.LoadConst (.val 2)] rfl rfl
  simpa using h

end Cel

namespace Cel

/-- C2: a Conditional node whose three children emit successfully appends
the condition's instructions `C`, then one `JumpIfZero` whose offset is the
length of the true-branch scratch buffer `T` — the when-true instructions
`T0` plus one trailing `Jump` — then `T` itself, then the when-false
instructions `F`; the trailing `Jump` offset is the length of `F`. -/
theorem conditional_emit (env : Environment) (c t f : Expr)
    (bc C T0 F : List ByteCode)
    (hc : emitBytecode env c [] = (C, none))
    (ht : emitBytecode env t [] = (T0, none))
    (hf : emitBytecode env f [] = (F, none)) :
    emitBytecode env (.conditional c t f) bc =
      (bc ++ C ++ [ByteCode.JumpIfZero (T0 ++ [ByteCode.Jump F.length]).length]
          ++ (T0 ++ [ByteCode.Jump F.length]) ++ F, none) := by
  simp only [emitBytecode]
  rw [hf]
  simp only
  rw [ht]
  simp only
  rw [emit_append env c bc, hc]

/-- Witness for C2: condition `x` (slot 4), when-true constant `2`,
when-false `1 + 2` (three instructions), emitted after an existing `Add`. -/
theorem conditional_emit_witness :
    emitBytecode wenv
        (.conditional (.identifier 1 1 "x") (.const (.val 2))
          (.binary (.const (.val 1)) .Add (.const (.val 2)))) [.Add] =
      ([.Add, .LoadItem 4, .JumpIfZero 2, .LoadConst (.val 2), .Jump 3,
        .LoadConst (.val 2), .LoadConst (.val 1), .Add], none) := by
  have h := conditional_emit wenv (.identifier 1 1 "x") (.const (.val 2))
    (.binary (.const (.val 1)) .Add (.const (.val 2))) [.Add]
    [.LoadItem 4] [.LoadConst (.val 2)]
    [.LoadConst (.val 2), .LoadConst (.val 1), .Add] rfl rfl rfl
  exact h.trans rfl

/-- C1 (counterexample): with condition `x` (emitting the single-instruction
sequence `C = [LoadItem 4]`), a when-true branch emitting exactly one
instruction and a when-false branch emitting exactly two, the emitted
conditional is NOT `C, JumpIfZero(1), t-instr, Jump(2), f-instrs`: the
`JumpIfZero` offset the code computes is `2` (the true-branch instruction
plus the trailing `Jump`), not `1`. -/
theorem conditional_shape_counterexample :
    (emitBytecode wenv (.identifier 1 1 "x") [] = ([.LoadItem 4], none)) ∧
    (emitBytecode wenv (.identifier 1 3 "x") [] = ([.LoadItem 4], none)) ∧
    (emitBytecode wenv (.call 1 5 "g" (.cons (.identifier 1 7 "x") .nil)) [] =
      ([.LoadItem 4, .Call 0 1 5], none)) ∧
    emitBytecode wenv
        (.conditional (.identifier 1 1 "x") (.identifier 1 3 "x")
          (.call 1 5 "g" (.cons (.identifier 1 7 "x") .nil))) [] ≠
      ([.LoadItem 4] ++ [.JumpIfZero 1] ++ [.LoadItem 4] ++ [.Jump 2]
        ++ [.LoadItem 4, .Call 0 1 5], none) := by
  refine ⟨rfl, rfl, rfl, ?_⟩
  decide

/-- C1 (amended): for every condition emitting `C`, when-true branch
emitting exactly one instruction and when-false branch emitting exactly two,
emitting the conditional into an empty buffer yields exactly
`C, JumpIfZero(2), t-instr, Jump(2), f-instr1, f-instr2` — the `JumpIfZero`
offset is `2`, covering the single true-branch instruction plus the trailing
`Jump`. -/
theorem conditional_shape_amended (env : Environment) (c t f : Expr)
    (C : List ByteCode) (t0 f0 f1 : ByteCode)
    (hc : emitBytecode env c [] = (C, none))
    (ht : emitBytecode env t [] = ([t0], none))
    (hf : emitBytecode env f [] = ([f0, f1], none)) :
    emitBytecode env (.conditional c t f) [] =
      (C ++ [.JumpIfZero 2, t0, .Jump 2, f0, f1], none) := by
  simp only [emitBytecode]
  rw [hf]
  simp only
  rw [ht]
  simp only
  rw [hc]
  simp

/-- Witness for the amended C1 at the counterexample's input: the offset
emitted is `2`. -/
theorem conditional_shape_amended_witness :
    emitBytecode wenv
        (.conditional (.identifier 1 1 "x") (.identifier 1 3 "x")
          (.call 1 5 "g" (.cons (.identifier 1 7 "x") .nil))) [] =
      ([.LoadItem 4, .JumpIfZero 2, .LoadItem 4, .Jump 2,
        .LoadItem 4, .Call 0 1 5], none) := by
  have h := conditional_shape_amended wenv (.identifier 1 1 "x")
    (.identifier 1 3 "x") (.call 1 5 "g" (.cons (.identifier 1 7 "x") .nil))
    [.LoadItem 4] (.LoadItem 4) (.LoadItem 4) (.Call 0 1 5) rfl rfl rfl
  exact h.trans rfl

end Cel

namespace Cel

/-- C4: a Call node resolving to a fixed-arity signature whose argument
count equals the expected count (`Single→1`, `Double→2`, `Triple→3`) emits
successfully: it appends the arguments' instructions in reverse argument
order (last argument first), followed by exactly one `Call` instruction
carrying the resolved function index and the node's source position. -/
theorem call_fixed_arity_emit (env : Environment) (line column : ℕ)
    (name : String) (args : List Expr) (index : ℕ) (func : Function) (k : ℕ)
    (bc : List ByteCode)
    (hres : env.function_info name = some (index, func))
    (hfix : expectedArgs func = some k)
    (hlen : args.length = k)
    (hargs : ∀ a ∈ args, (emitBytecode env a []).2 = none) :
    emitBytecode env (.call line column name (ExprList.ofList args)) bc =
      (bc ++ (args.reverse.map (fun a => (emitBytecode env a []).1)).flatten
          ++ [.Call index line column], none) := by
  simp only [emitBytecode]
  rw [emitArgs_append env _ bc, emitArgs_ofList_success env args hargs]
  simp only
  rw [hres]
  subst hlen
  cases func with
  | Vararg => simp [expectedArgs] at hfix
  | Single =>
      simp only [expectedArgs, Option.some.injEq] at hfix
      simp [ExprList.length_ofList, ← hfix]
  | Double =>
      simp only [expectedArgs, Option.some.injEq] at hfix
      simp [ExprList.length_ofList, ← hfix]
  | Triple =>
      simp only [expectedArgs, Option.some.injEq] at hfix
      simp [ExprList.length_ofList, ← hfix]

/-- Witness for C4 at the spec's own example: a `Double` function `d` with
exactly two arguments emits `arg2, arg1, Call(index, pos)`. -/
theorem call_fixed_arity_witness :
    emitBytecode wenv
        (.call 2 3 "d" (ExprList.ofList [.identifier 1 1 "x", .const (.val 3)])) [] =
      ([.LoadConst (.val 3), .LoadItem 4, .Call 1 2 3], none) := by
  have h := call_fixed_arity_emit wenv 2 3 "d"
    [.identifier 1 1 "x", .const (.val 3)] 1 .Double 2 [] rfl rfl rfl
    (by decide)
  exact h.trans rfl

/-- C5: a Call node resolving to a fixed-arity signature whose argument
count differs from the expected count fails with the arity error
(`invalid num args`) at the node's source position; the arguments'
instructions, already appended in reverse order before the arity check, stay
in the buffer, and no `Call` instruction is appended. -/
theorem call_arity_mismatch (env : Environment) (line column : ℕ)
    (name : String) (args : List Expr) (index : ℕ) (func : Function) (k : ℕ)
    (bc : List ByteCode)
    (hres : env.function_info name = some (index, func))
    (hfix : expectedArgs func = some k)
    (hlen : args.length ≠ k)
    (hargs : ∀ a ∈ args, (emitBytecode env a []).2 = none) :
    emitBytecode env (.call line column name (ExprList.ofList args)) bc =
      (bc ++ (args.reverse.map (fun a => (emitBytecode env a []).1)).flatten,
       some (Error.new line column "invalid num args")) := by
  simp only [emitBytecode]
  rw [emitArgs_append env _ bc, emitArgs_ofList_success env args hargs]
  simp only
  rw [hres]
  cases func with
  | Vararg => simp [expectedArgs] at hfix
  | Single =>
      simp only [expectedArgs, Option.some.injEq] at hfix
      subst hfix
      simp [ExprList.length_ofList, hlen]
  | Double =>
      simp only [expectedArgs, Option.some.injEq] at hfix
      subst hfix
      simp [ExprList.length_ofList, hlen]
  | Triple =>
      simp only [expectedArgs, Option.some.injEq] at hfix
      subst hfix
      simp [ExprList.length_ofList, hlen]

/-- Witness for C5 at the spec's own example: a `Double` function `d` with
three arguments fails with the arity error at the node's position (2, 3),
and the three argument instructions remain in the buffer in reverse order. -/
theorem call_arity_mismatch_witness :
    emitBytecode wenv
        (.call 2 3 "d"
          (ExprList.ofList [.const (.val 1), .const (.val 2), .const (.val 3)])) [] =
      ([.LoadConst (.val 3), .LoadConst (.val 2), .LoadConst (.val 1)],
       some (Error.new 2 3 "invalid num args")) := by
  have h := call_arity_mismatch wenv 2 3 "d"
    [.const (.val 1), .const (.val 2), .const (.val 3)] 1 .Double 2 []
    rfl rfl (by decide) (by decide)
  exact h.trans rfl

/-- C6: a Call node resolving to a `Vararg` signature never fails on arity:
for any argument count n, including 0, if every argument emits successfully
the node appends the arguments' instructions in reverse order followed by
exactly one `CallVararg` carrying the resolved function index, the actual
argument count n, and the node's source position, and returns successfully. -/
theorem call_vararg_emit (env : Environment) (line column : ℕ) (name : String)
    (args : List Expr) (index : ℕ) (bc : List ByteCode)
    (hres : env.function_info name = some (index, .Vararg))
    (hargs : ∀ a ∈ args, (emitBytecode env a []).2 = none) :
    emitBytecode env (.call line column name (ExprList.ofList args)) bc =
      (bc ++ (args.reverse.map (fun a => (emitBytecode env a []).1)).flatten
          ++ [.CallVararg index args.length line column], none) := by
  simp only [emitBytecode]
  rw [emitArgs_append env _ bc, emitArgs_ofList_success env args hargs]
  simp only
  rw [hres]
  simp [ExprList.length_ofList]

/-- Witness for C6: the `Vararg` function `v` (index 7) succeeds with zero
arguments, emitting `CallVararg` with count 0, and with two arguments,
emitting them in reverse order and `CallVararg` with count 2. -/
theorem call_vararg_witness :
    (emitBytecode wenv (.call 4 9 "v" (ExprList.ofList [])) [] =
      ([.CallVararg 7 0 4 9], none)) ∧
    (emitBytecode wenv
        (.call 4 9 "v" (ExprList.ofList [.identifier 1 1 "x", .const (.val 6)])) [] =
      ([.LoadConst (.val 6), .LoadItem 4, .CallVararg 7 2 4 9], none)) := by
  constructor
  · have h := call_vararg_emit wenv 4 9 "v" [] 7 [] rfl (by decide)
    exact h.trans rfl
  · have h := call_vararg_emit wenv 4 9 "v"
      [.identifier 1 1 "x", .const (.val 6)] 7 [] rfl (by decide)
    exact h.trans rfl

end Cel

namespace Cel

/-- C7: an Identifier node whose name the environment's slot lookup does not
resolve fails with the identifier-not-found error at the node's source
position and appends nothing — the buffer is exactly what it was before the
call; on successful lookup it appends exactly one `LoadItem` carrying the
resolved slot index. -/
theorem identifier_emit (env : Environment) (line column : ℕ) (name : String)
    (bc : List ByteCode) :
    (env.index_of_item name = none →
      emitBytecode env (.identifier line column name) bc =
        (bc, some (Error.new line column "identifier not found"))) ∧
    (∀ index, env.index_of_item name = some index →
      emitBytecode env (.identifier line column name) bc =
        (bc ++ [.LoadItem index], none)) := by
  constructor
  · intro h
    simp [emitBytecode, h]
  · intro index h
    simp [emitBytecode, h]

/-- Witness for C7: in `wenv`, `y` is unbound, so emission fails at the
node's position (3, 9) and leaves the buffer `[Add]` untouched; `x` resolves
to slot 4 and appends exactly `LoadItem 4`. -/
theorem identifier_emit_witness :
    (emitBytecode wenv (.identifier 3 9 "y") [.Add] =
      ([.Add], some (Error.new 3 9 "identifier not found"))) ∧
    (emitBytecode wenv (.identifier 3 9 "x") [.Add] =
      ([.Add, .LoadItem 4], none)) :=
  ⟨(identifier_emit wenv 3 9 "y" [.Add]).1 rfl,
   (identifier_emit wenv 3 9 "x" [.Add]).2 4 rfl⟩

/-- C8: structural equality ignores source positions and compares constants
exactly: two Identifier nodes with the same name are `values_equal` whatever
their line/column values, and two Constant nodes whose values are not
exactly numerically equal are never `values_equal` (the comparison is exact
IEEE-754 `==`, not tolerance-based). -/
theorem values_equal_position_and_exactness :
    (∀ (name : String) (l1 c1 l2 c2 : ℕ),
      valuesEqual (.identifier l1 c1 name) (.identifier l2 c2 name) = true) ∧
    (∀ a b : F64, ¬ F64.numEq a b →
      valuesEqual (.const a) (.const b) = false) := by
  constructor
  · intro name l1 c1 l2 c2
    simp [valuesEqual]
  · intro a b h
    cases a with
    | nan => cases b <;> simp [valuesEqual, F64.beq]
    | val qa =>
        cases b with
        | nan => simp [valuesEqual, F64.beq]
        | val qb =>
            simp only [F64.numEq] at h
            simp only [valuesEqual, F64.beq, beq_eq_false_iff_ne, ne_eq]
            exact fun hba => h hba.symm

/-- Witness for C8: identifiers named `x` at positions (1, 1) and (2, 9) are
structurally equal; the constants 1 and 2 are not numerically equal and are
not structurally equal. -/
theorem values_equal_witness :
    (valuesEqual (.identifier 1 1 "x") (.identifier 2 9 "x") = true) ∧
    (valuesEqual (.const (.val 1)) (.const (.val 2)) = false) :=
  ⟨values_equal_position_and_exactness.1 "x" 1 1 2 9,
   values_equal_position_and_exactness.2 (.val 1) (.val 2) (by decide)⟩

end Cel
